import Mathlib

/-!
Verification of the replication core of the go-ssb repository: the trust-graph
authorizer (graph/authorizer.go) and the state matrix (internal/statematrix/store.go).

Go maps are embedded as association lists with first-match lookup; Go map values
held by reference are embedded through an explicit heap of numbered references so
that aliasing between the cached frontiers and values returned to callers is
observable.  Machine integers (int64 sequence numbers) are embedded as Int.
-/

namespace GoSSB

/-- Association-list lookup, the embedding of a Go map read m[k]. -/
def mget {κ β : Type} [DecidableEq κ] : List (κ × β) → κ → Option β
  | [], _ => none
  | e :: rest, k => if e.1 = k then some e.2 else mget rest k

/-- Association-list write, the embedding of a Go map write m[k] = v. -/
def mset {κ β : Type} [DecidableEq κ] : List (κ × β) → κ → β → List (κ × β)
  | [], k, v => [(k, v)]
  | e :: rest, k, v => if e.1 = k then (k, v) :: rest else e :: mset rest k v

/-- Association-list removal, the embedding of a Go delete(m, k). -/
def mdel {κ β : Type} [DecidableEq κ] : List (κ × β) → κ → List (κ × β)
  | [], _ => []
  | e :: rest, k => if e.1 = k then mdel rest k else e :: mdel rest k

/-- A list of pairs is a valid map when its keys are pairwise distinct. -/
abbrev keysNodup {κ β : Type} (l : List (κ × β)) : Prop :=
  (l.map Prod.fst).Nodup

/-- The value of the last entry of the list carrying the given key, if any.
Used to describe the result of folding map writes over a list of entries. -/
def lastVal {β : Type} : List (String × β) → String → Option β
  | [], _ => none
  | e :: rest, k =>
    match lastVal rest k with
    | some v => some v
    | none => if e.1 = k then some e.2 else none

/-- A note, the per-feed cursor of a frontier (ssb.Note): highest claimed
sequence, whether the peer replicates the feed, whether it wants new messages. -/
structure Note where
  seq : Int
  replicate : Bool
  receive : Bool
deriving DecidableEq, Repr

/-- A network frontier, the embedding of ssb.NetworkFrontier, a Go map from
feed reference strings to notes. -/
abbrev NetworkFrontier := List (String × Note)

/-- The overlay loop of StateMatrix.Update: write every entry of the patch into
the current frontier, left to right. -/
def overlay (current patch : NetworkFrontier) : NetworkFrontier :=
  patch.foldl (fun acc e => mset acc e.1 e.2) current

/-- The copy loop of StateMatrix.Update: allocate a fresh map and write every
entry of the source frontier into it. -/
def copyNF (nf : NetworkFrontier) : NetworkFrontier :=
  overlay [] nf

/-! ## Trust graph and authorizer (graph/authorizer.go) -/

/-- Modelled from the spec: the trust graph built by the graph builder, which is
not part of the sources at hand.  Nodes are feed references; a follow edge
carries weight 1 and a block edge weight plus infinity. -/
structure TrustGraph where
  nodes : List String
  followEdges : List (String × String)
  blockEdges : List (String × String)

/-- Modelled from the spec: fg.Follows(a, b) holds when the graph has a direct
follow edge (finite weight) from a to b. -/
def TrustGraph.follows (g : TrustGraph) (a b : String) : Bool :=
  decide ((a, b) ∈ g.followEdges)

/-- Modelled from the spec: a is a node of the graph. MakeDijkstra fails with
ErrNoSuchFrom exactly when its origin is not a node of the graph. -/
def TrustGraph.hasNode (g : TrustGraph) (a : String) : Bool :=
  decide (a ∈ g.nodes)

/-- One breadth-first expansion step along a list of directed edges. -/
def stepReach (es : List (String × String)) (rs : List String) : List String :=
  rs ++ (es.filter (fun e => decide (e.1 ∈ rs) && decide (¬ e.2 ∈ rs))).map Prod.snd

/-- Nodes reachable from the start node in at most k hops. -/
def reachN (es : List (String × String)) (start : String) : Nat → List String
  | 0 => [start]
  | k + 1 => stepReach es (reachN es start k)

/-- Shortest hop distance: the smallest k such that b is reachable from a in at
most k hops, searching up to the number of edges (a shortest path repeats no
edge). -/
def hopDist (es : List (String × String)) (a b : String) : Option Nat :=
  (List.range (es.length + 1)).find? (fun k => decide (b ∈ reachN es a k))

/-- b is reachable from a along the given edges. -/
def reachable (es : List (String × String)) (a b : String) : Bool :=
  decide (b ∈ reachN es a es.length)

/-- Extended shortest-path distance as the authorizer observes it: minus
infinity for unreachable, a natural hop count for a follow path, plus infinity
when every path crosses a block edge. -/
inductive EDist
  | neginf
  | fin (n : Nat)
  | posinf
deriving DecidableEq, Repr

/-- Modelled from the spec: the shortest-path distance of the Dijkstra lookup,
follow edges weighing 1 and block edges weighing plus infinity; minus infinity
when the target is not connected at all. -/
def TrustGraph.dist (g : TrustGraph) (a b : String) : EDist :=
  match hopDist g.followEdges a b with
  | some n => .fin n
  | none =>
    if reachable (g.followEdges ++ g.blockEdges) a b then .posinf else .neginf

/-- Outcome of authorizer.Authorize: nil, the ErrNoSuchFrom error, or the
ssb.ErrOutOfReach error carrying the observed distance and the hop bound. -/
inductive AuthResult
  | ok
  | noSuchFrom (who : String)
  | outOfReach (dist : EDist) (max : Int)
deriving DecidableEq, Repr

/-- authorizer.Authorize (graph/authorizer.go): admit on an empty graph (trust
on first use); admit on a direct follow; swallow ErrNoSuchFrom from the
Dijkstra construction and admit (the resync kludge); otherwise reject with
ErrOutOfReach when the distance is infinite or exceeds maxHops. -/
def authorize (g : TrustGraph) (frm tgt : String) (maxHops : Int) : AuthResult :=
  if g.nodes.length = 0 then .ok
  else if g.follows frm tgt then .ok
  else if g.hasNode frm then
    match g.dist frm tgt with
    | .neginf => .outOfReach .neginf maxHops
    | .posinf => .outOfReach .posinf maxHops
    | .fin n => if (n : Int) > maxHops then .outOfReach (.fin n) maxHops else .ok
  else .ok

/-! ## State matrix (internal/statematrix/store.go)

The on-disk format and the in-memory cache.  A Go map value is a reference; the
cache maps peers to references and a heap maps references to frontier contents,
so that the difference between returning a cached map and returning a copy is
visible in the model. -/

/-- Modelled from the spec: a JSON value as far as the state file format needs,
numbers, booleans and string-keyed objects. -/
inductive Json
  | num (n : Int)
  | bool (b : Bool)
  | obj (fields : List (String × Json))

/-- Modelled from the spec: the JSON encoding of a note, an object with the
fields seq, replicate and receive. -/
def encodeNote (n : Note) : Json :=
  .obj [("seq", .num n.seq), ("replicate", .bool n.replicate), ("receive", .bool n.receive)]

/-- Modelled from the spec: decoding of a note object; fails unless all three
fields are present with the right types. -/
def decodeNote : Json → Option Note
  | .obj fields =>
    match mget fields ("seq"), mget fields ("replicate"), mget fields ("receive") with
    | some (.num s), some (.bool r), some (.bool c) => some ⟨s, r, c⟩
    | _, _, _ => none
  | _ => none

/-- Modelled from the spec: the JSON encoding of a frontier, an object mapping
feed reference strings to encoded notes. -/
def encodeFrontier (nf : NetworkFrontier) : Json :=
  .obj (nf.map (fun e => (e.1, encodeNote e.2)))

/-- Decoding of the fields of a frontier object, entry by entry. -/
def decodeFields : List (String × Json) → Option NetworkFrontier
  | [] => some []
  | (k, v) :: rest =>
    match decodeNote v, decodeFields rest with
    | some n, some nf => some ((k, n) :: nf)
    | _, _ => none

/-- Modelled from the spec: decoding of a frontier from JSON. -/
def decodeFrontier : Json → Option NetworkFrontier
  | .obj fields => decodeFields fields
  | _ => none

/-- Content of a peer's state file: unreadable stands for an open failure other
than file-not-found, emptyFile for a present but empty (truncated) file, and
content for readable JSON bytes. -/
inductive FileData
  | unreadable
  | emptyFile
  | content (j : Json)

/-- Reference into the heap of live Go maps. -/
abbrev Ref := Nat

/-- The StateMatrix: the identity of self, the open-frontier cache (peer to
reference), the heap of live frontier maps, a fresh-reference counter, the
committed state files and the temporary .new files, both keyed by the peer
whose hex TFK encoding names the file. -/
structure StateMatrix where
  self : String
  openRefs : List (String × Ref)
  heap : List (Ref × NetworkFrontier)
  nextRef : Ref
  files : List (String × FileData)
  tmps : List (String × FileData)

/-- Errors of the state matrix: an open failure other than not-found, or a JSON
decode failure. -/
inductive SMErr
  | ioError
  | decodeError
deriving DecidableEq, Repr

/-- StateMatrix.loadFrontier: return the cached frontier when the peer is open;
otherwise open the state file, treating a missing file as an empty frontier,
failing on other open errors and on JSON decode errors, and cache the result. -/
def loadFrontier (sm : StateMatrix) (peer : String) : Except SMErr (Ref × StateMatrix) :=
  match mget sm.openRefs peer with
  | some r => .ok (r, sm)
  | none =>
    match mget sm.files peer with
    | none =>
      let r := sm.nextRef
      .ok (r, { sm with heap := mset sm.heap r [],
                        nextRef := r + 1,
                        openRefs := mset sm.openRefs peer r })
    | some .unreadable => .error .ioError
    | some .emptyFile => .error .decodeError
    | some (.content j) =>
      match decodeFrontier j with
      | none => .error .decodeError
      | some nf =>
        let r := sm.nextRef
        .ok (r, { sm with heap := mset sm.heap r nf,
                          nextRef := r + 1,
                          openRefs := mset sm.openRefs peer r })

/-- StateMatrix.Inspect: the current frontier for the passed peer, by
loadFrontier under the mutex. -/
def inspect (sm : StateMatrix) (peer : String) : Except SMErr (Ref × StateMatrix) :=
  loadFrontier sm peer

/-- StateMatrix.Update: load the current frontier of the peer, overwrite the
entries named by the update, store it back, and return a freshly allocated
copy of the merged frontier. -/
def update (sm : StateMatrix) (who : String) (patch : NetworkFrontier) :
    Except SMErr (Ref × StateMatrix) :=
  match loadFrontier sm who with
  | .error e => .error e
  | .ok (r, sm1) =>
    let current := (mget sm1.heap r).getD []
    let merged := overlay current patch
    let result := copyNF merged
    let r2 := sm1.nextRef
    .ok (r2, { sm1 with heap := mset (mset sm1.heap r merged) r2 result,
                        openRefs := mset sm1.openRefs who r,
                        nextRef := r2 + 1 })

/-- An observed feed handed to Fill: a feed reference together with a note. -/
structure ObservedFeed where
  feed : String
  note : Note
deriving DecidableEq, Repr

/-- The loop body of StateMatrix.Fill over the list of observed feeds: a note
with replicate true is written, any other note deletes the entry. -/
def applyObserved (nf : NetworkFrontier) (feeds : List ObservedFeed) : NetworkFrontier :=
  feeds.foldl (fun acc o => if o.note.replicate then mset acc o.feed o.note else mdel acc o.feed) nf

/-- StateMatrix.Fill: load the current frontier of the peer, upsert every
observed feed in order, and store the result back. -/
def fill (sm : StateMatrix) (who : String) (feeds : List ObservedFeed) : Except SMErr StateMatrix :=
  match loadFrontier sm who with
  | .error e => .error e
  | .ok (r, sm1) =>
    let nf := (mget sm1.heap r).getD []
    .ok { sm1 with heap := mset sm1.heap r (applyObserved nf feeds),
                   openRefs := mset sm1.openRefs who r }

/-- StateMatrix.save: create or truncate the temporary .new file; if the peer
has no open frontier return nil leaving the truncated temporary behind;
otherwise encode the frontier into the temporary file and atomically rename it
over the state file. -/
def save (sm : StateMatrix) (peer : String) : Except SMErr StateMatrix :=
  let sm1 := { sm with tmps := mset sm.tmps peer FileData.emptyFile }
  match mget sm1.openRefs peer with
  | none => .ok sm1
  | some r =>
    let nf := (mget sm1.heap r).getD []
    .ok { sm1 with files := mset sm1.files peer (FileData.content (encodeFrontier nf)),
                   tmps := mdel sm1.tmps peer }

/-- StateMatrix.saveAndClose: save the peer's frontier and drop it from the
open cache. -/
def saveAndClose (sm : StateMatrix) (peer : String) : Except SMErr StateMatrix :=
  match save sm peer with
  | .error e => .error e
  | .ok sm1 => .ok { sm1 with openRefs := mdel sm1.openRefs peer }

/-- The external collaborators of StateMatrix.Changed: the replication list and
the verification sinks delivering the current verified sequence per feed. -/
structure Deps where
  replicationList : List String
  seqOf : String → Int

/-- StateMatrix.loadLocalFrontier: the frontier of self derived from the
replication list, every wanted feed mapped to its verified sequence with
replicate and receive set. -/
def loadLocalFrontier (deps : Deps) : NetworkFrontier :=
  deps.replicationList.foldl (fun acc ref => mset acc ref ⟨deps.seqOf ref, true, true⟩) []

/-- StateMatrix.Changed: build the local frontier and return a freshly
allocated copy of the whole of it; the self and peer arguments take no part in
the computation. -/
def changed (sm : StateMatrix) (deps : Deps) (slf peer : String) :
    Except SMErr (Ref × StateMatrix) :=
  let selfNf := loadLocalFrontier deps
  let relevant := copyNF selfNf
  let r := sm.nextRef
  .ok (r, { sm with heap := mset sm.heap r relevant, nextRef := r + 1 })

/-- The frontier a peer's cache entry points at. -/
def frontierOf (sm : StateMatrix) (peer : String) : Option NetworkFrontier :=
  (mget sm.openRefs peer).bind (fun r => mget sm.heap r)

/-- The note recorded in the state matrix for a peer and feed. -/
def frontierNote (sm : StateMatrix) (peer feed : String) : Option Note :=
  (frontierOf sm peer).bind (fun nf => mget nf feed)

/-- The sequence recorded in the state matrix for a peer and feed. -/
def seqAt (sm : StateMatrix) (peer feed : String) : Option Int :=
  (frontierNote sm peer feed).map Note.seq

/-- Well-formedness of the cache: cached references are below the allocation
counter, no peer is cached twice, no two peers share a reference, and every
cached reference is live in the heap. -/
abbrev WF (sm : StateMatrix) : Prop :=
  (∀ e ∈ sm.openRefs, e.2 < sm.nextRef) ∧
  (sm.openRefs.map Prod.fst).Nodup ∧
  (sm.openRefs.map Prod.snd).Nodup ∧
  (∀ e ∈ sm.openRefs, (mget sm.heap e.2).isSome = true)

/-- One mutating state-matrix call: an Update with a patch frontier or a Fill
with a list of observed feeds. -/
inductive SMOp
  | updateOp (who : String) (patch : NetworkFrontier)
  | fillOp (who : String) (feeds : List ObservedFeed)

/-- The peer an operation addresses. -/
def opWho : SMOp → String
  | .updateOp who _ => who
  | .fillOp who _ => who

/-- Run one call; a failed call leaves the matrix unchanged, so a run of this
over a list covers in particular every sequence of successful calls. -/
def runOp1 (sm : StateMatrix) : SMOp → StateMatrix
  | .updateOp who patch =>
    match update sm who patch with
    | .ok (_, sm') => sm'
    | .error _ => sm
  | .fillOp who feeds =>
    match fill sm who feeds with
    | .ok sm' => sm'
    | .error _ => sm

/-- Run a sequence of calls left to right. -/
def runOps (sm : StateMatrix) : List SMOp → StateMatrix
  | [] => sm
  | op :: rest => runOps (runOp1 sm op) rest

/-- The notes an operation carries for a given peer and feed. -/
def notesFor : SMOp → String → String → List Note
  | .updateOp who patch, peer, feed =>
    if who = peer then (patch.filter (fun e => decide (e.1 = feed))).map Prod.snd else []
  | .fillOp who feeds, peer, feed =>
    if who = peer then (feeds.filter (fun o => decide (o.feed = feed))).map ObservedFeed.note else []

/-- The hypothesis on one incoming call: every note it carries for the peer and
feed replicates the feed and does not rewind below the currently recorded
sequence. -/
abbrev opOk (sm : StateMatrix) (peer feed : String) (op : SMOp) : Prop :=
  ∀ n ∈ notesFor op peer feed, n.replicate = true ∧ (seqAt sm peer feed).getD n.seq ≤ n.seq

/-- The hypothesis over a whole sequence of calls, each judged at the state it
runs in. -/
def chainOk (sm : StateMatrix) (peer feed : String) : List SMOp → Prop
  | [] => True
  | op :: rest => opOk sm peer feed op ∧ chainOk (runOp1 sm op) peer feed rest

instance chainOkDecidable (peer feed : String) :
    (sm : StateMatrix) → (ops : List SMOp) → Decidable (chainOk sm peer feed ops)
  | _, [] => isTrue trivial
  | sm, op :: rest =>
    have h2 : Decidable (chainOk (runOp1 sm op) peer feed rest) :=
      chainOkDecidable peer feed (runOp1 sm op) rest
    have h1 : Decidable (opOk sm peer feed op) := inferInstance
    @instDecidableAnd _ _ h1 h2

/-- The frontier Changed hands back, read off the returned reference. -/
def runChanged (sm : StateMatrix) (deps : Deps) (slf peer : String) : Option NetworkFrontier :=
  match changed sm deps slf peer with
  | .ok (r, sm') => mget sm'.heap r
  | .error _ => none

/-- The matrix left behind by a successful Update, for stating concrete
counterexamples. -/
def updateRes (sm : StateMatrix) (who : String) (patch : NetworkFrontier) : Option StateMatrix :=
  match update sm who patch with
  | .ok (_, sm') => some sm'
  | .error _ => none

/-- The value of the last entry of an observed-feed list naming the given
feed, if any. -/
def lastObs : List ObservedFeed → String → Option ObservedFeed
  | [], _ => none
  | o :: rest, k =>
    match lastObs rest k with
    | some o' => some o'
    | none => if o.feed = k then some o else none

/-! ## Association-list lemmas -/

@[simp]
theorem mget_mset_self {κ β : Type} [DecidableEq κ] (l : List (κ × β)) (k : κ) (v : β) :
    mget (mset l k v) k = some v := by
  induction l with
  | nil => simp [mget, mset]
  | cons e rest ih =>
    by_cases h : e.1 = k
    · simp [mset, mget, h]
    · simp [mset, mget, h, ih]

theorem mget_mset_ne {κ β : Type} [DecidableEq κ] (l : List (κ × β)) (k k' : κ) (v : β)
    (h : ¬ k' = k) : mget (mset l k v) k' = mget l k' := by
  have h2 : ¬ k = k' := fun hh => h hh.symm
  induction l with
  | nil => simp [mget, mset, h2]
  | cons e rest ih =>
    by_cases he : e.1 = k
    · simp [mset, mget, he, h2]
    · by_cases he' : e.1 = k'
      · simp [mset, mget, he, he', h]
      · simp [mset, mget, he, he', ih]

@[simp]
theorem mget_mdel_self {κ β : Type} [DecidableEq κ] (l : List (κ × β)) (k : κ) :
    mget (mdel l k) k = none := by
  induction l with
  | nil => simp [mget, mdel]
  | cons e rest ih =>
    by_cases h : e.1 = k
    · simp [mdel, h, ih]
    · simp [mdel, mget, h, ih]

theorem mget_mdel_ne {κ β : Type} [DecidableEq κ] (l : List (κ × β)) (k k' : κ)
    (h : ¬ k' = k) : mget (mdel l k) k' = mget l k' := by
  have h2 : ¬ k = k' := fun hh => h hh.symm
  induction l with
  | nil => simp [mget, mdel]
  | cons e rest ih =>
    by_cases he : e.1 = k
    · have h3 : ¬ e.1 = k' := fun hh => h (he ▸ hh ▸ rfl)
      simp [mdel, mget, he, h3, h2, ih]
    · by_cases he' : e.1 = k'
      · simp [mdel, mget, he, he', h]
      · simp [mdel, mget, he, he', ih]

theorem mget_mem {κ β : Type} [DecidableEq κ] {l : List (κ × β)} {k : κ} {v : β}
    (h : mget l k = some v) : (k, v) ∈ l := by
  induction l with
  | nil => simp [mget] at h
  | cons e rest ih =>
    obtain ⟨a, b⟩ := e
    by_cases he : a = k
    · subst he
      simp [mget] at h
      subst h
      exact List.mem_cons_self _ _
    · simp [mget, he] at h
      exact List.mem_cons_of_mem _ (ih h)

theorem mget_eq_none_iff {κ β : Type} [DecidableEq κ] (l : List (κ × β)) (k : κ) :
    mget l k = none ↔ k ∉ l.map Prod.fst := by
  induction l with
  | nil => simp [mget]
  | cons e rest ih =>
    obtain ⟨a, b⟩ := e
    by_cases he : a = k
    · subst he
      simp [mget]
    · have h2 : ¬ k = a := fun hh => he hh.symm
      simp [mget, he, ih, h2]

theorem mset_eq_of_mget {κ β : Type} [DecidableEq κ] {l : List (κ × β)} {k : κ} {v : β}
    (h : mget l k = some v) : mset l k v = l := by
  induction l with
  | nil => simp [mget] at h
  | cons e rest ih =>
    obtain ⟨a, b⟩ := e
    by_cases he : a = k
    · subst he
      simp [mget] at h
      subst h
      simp [mset]
    · simp [mget, he] at h
      simp [mset, he, ih h]

theorem mset_of_mget_none {κ β : Type} [DecidableEq κ] {l : List (κ × β)} {k : κ}
    (h : mget l k = none) (v : β) : mset l k v = l ++ [(k, v)] := by
  induction l with
  | nil => simp [mset]
  | cons e rest ih =>
    by_cases he : e.1 = k
    · simp [mget, he] at h
    · simp [mget, he] at h
      simp [mset, he, ih h]

theorem mget_mset_isSome {κ β : Type} [DecidableEq κ] {l : List (κ × β)} {k k' : κ} {v : β}
    (h : (mget l k').isSome = true) : (mget (mset l k v) k').isSome = true := by
  by_cases hk : k' = k
  · subst hk
    simp
  · rw [mget_mset_ne l k k' v hk]
    exact h

theorem mget_inj {κ β : Type} [DecidableEq κ] {l : List (κ × β)} {p q : κ} {r : β}
    (hnd : (l.map Prod.snd).Nodup) (hp : mget l p = some r) (hq : mget l q = some r) :
    p = q := by
  induction l with
  | nil => simp [mget] at hp
  | cons e rest ih =>
    simp only [List.map_cons, List.nodup_cons] at hnd
    by_cases hep : e.1 = p
    · by_cases heq : e.1 = q
      · rw [← hep, heq]
      · simp [mget, hep] at hp
        simp [mget, heq] at hq
        exact absurd (List.mem_map_of_mem Prod.snd (mget_mem hq)) (hp ▸ hnd.1)
    · by_cases heq : e.1 = q
      · simp [mget, hep] at hp
        simp [mget, heq] at hq
        exact absurd (List.mem_map_of_mem Prod.snd (mget_mem hp)) (hq ▸ hnd.1)
      · simp [mget, hep] at hp
        simp [mget, heq] at hq
        exact ih hnd.2 hp hq

theorem keys_mset_of_mget {κ β : Type} [DecidableEq κ] {l : List (κ × β)} {k : κ} {v' : β}
    (h : mget l k = some v') (v : β) :
    (mset l k v).map Prod.fst = l.map Prod.fst := by
  induction l with
  | nil => simp [mget] at h
  | cons e rest ih =>
    by_cases he : e.1 = k
    · simp [mset, he]
    · simp [mget, he] at h
      simp [mset, he, ih h]

theorem keysNodup_mset {κ β : Type} [DecidableEq κ] {l : List (κ × β)} {k : κ} {v : β}
    (h : keysNodup l) : keysNodup (mset l k v) := by
  cases hm : mget l k with
  | some v' =>
    unfold keysNodup
    rw [keys_mset_of_mget hm]
    exact h
  | none =>
    have hk : k ∉ l.map Prod.fst := (mget_eq_none_iff l k).1 hm
    unfold keysNodup
    rw [mset_of_mget_none hm, List.map_append, List.nodup_append]
    refine ⟨h, List.nodup_singleton k, ?_⟩
    intro a ha hb
    simp only [List.map_cons, List.map_nil, List.mem_singleton] at hb
    subst hb
    exact hk ha

/-! ## Fold lemmas for the overlay, copy, fill and local-frontier loops -/

theorem overlay_get (patch : NetworkFrontier) :
    ∀ (cur : NetworkFrontier) (k : String),
      mget (overlay cur patch) k =
        match lastVal patch k with
        | some v => some v
        | none => mget cur k := by
  induction patch with
  | nil => intro cur k; simp [overlay, lastVal]
  | cons e rest ih =>
    intro cur k
    have step : overlay cur (e :: rest) = overlay (mset cur e.1 e.2) rest := by
      simp [overlay]
    rw [step, ih]
    cases hl : lastVal rest k with
    | some v => simp [lastVal, hl]
    | none =>
      by_cases he : e.1 = k
      · subst he
        simp [lastVal, hl]
      · simp [lastVal, hl, he, mget_mset_ne _ _ _ _ (fun hh => he hh.symm)]

theorem lastVal_eq_none_of_not_mem {β : Type} {l : List (String × β)} {k : String}
    (h : k ∉ l.map Prod.fst) : lastVal l k = none := by
  induction l with
  | nil => rfl
  | cons e rest ih =>
    simp only [List.map_cons, List.mem_cons] at h
    push_neg at h
    have h2 : ¬ e.1 = k := fun hh => h.1 hh.symm
    simp [lastVal, ih h.2, h2]

theorem lastVal_eq_mget {β : Type} {l : List (String × β)} (h : keysNodup l) (k : String) :
    lastVal l k = mget l k := by
  induction l with
  | nil => rfl
  | cons e rest ih =>
    simp only [keysNodup, List.map_cons, List.nodup_cons] at h
    by_cases he : e.1 = k
    · have : lastVal rest k = none := lastVal_eq_none_of_not_mem (he ▸ h.1)
      simp [lastVal, mget, this, he]
    · cases hl : lastVal rest k with
      | some v => simp [lastVal, mget, hl, he, ← ih h.2, hl]
      | none => simp [lastVal, mget, hl, he, ← ih h.2, hl]

theorem lastVal_mem_filter {β : Type} {l : List (String × β)} {k : String} {v : β}
    (h : lastVal l k = some v) :
    v ∈ (l.filter (fun e => decide (e.1 = k))).map Prod.snd := by
  induction l with
  | nil => simp [lastVal] at h
  | cons e rest ih =>
    cases hl : lastVal rest k with
    | some v' =>
      rw [lastVal, hl] at h
      cases h
      by_cases he : e.1 = k
      · simp [List.filter_cons, he]
        right
        simpa using ih hl
      · simp [List.filter_cons, he]
        simpa using ih hl
    | none =>
      rw [lastVal, hl] at h
      by_cases he : e.1 = k
      · rw [if_pos he] at h
        cases h
        simp [List.filter_cons, he]
      · rw [if_neg he] at h
        cases h

theorem copyNF_get (nf : NetworkFrontier) (k : String) :
    mget (copyNF nf) k =
      match lastVal nf k with
      | some v => some v
      | none => none := by
  rw [copyNF, overlay_get]
  cases lastVal nf k <;> simp [mget]

theorem copyNF_get_of_nodup {nf : NetworkFrontier} (h : keysNodup nf) (k : String) :
    mget (copyNF nf) k = mget nf k := by
  rw [copyNF_get, lastVal_eq_mget h]
  cases mget nf k <;> rfl

theorem keysNodup_overlay {patch : NetworkFrontier} :
    ∀ {cur : NetworkFrontier}, keysNodup cur → keysNodup (overlay cur patch) := by
  induction patch with
  | nil => intro cur h; simpa [overlay] using h
  | cons e rest ih =>
    intro cur h
    have step : overlay cur (e :: rest) = overlay (mset cur e.1 e.2) rest := by
      simp [overlay]
    rw [step]
    exact ih (keysNodup_mset h)

theorem applyObserved_get (feeds : List ObservedFeed) :
    ∀ (nf : NetworkFrontier) (k : String),
      mget (applyObserved nf feeds) k =
        match lastObs feeds k with
        | some o => if o.note.replicate then some o.note else none
        | none => mget nf k := by
  induction feeds with
  | nil => intro nf k; simp [applyObserved, lastObs]
  | cons o rest ih =>
    intro nf k
    have step : applyObserved nf (o :: rest) =
        applyObserved (if o.note.replicate then mset nf o.feed o.note else mdel nf o.feed) rest := by
      simp [applyObserved]
    rw [step, ih]
    cases hl : lastObs rest k with
    | some o' => simp [lastObs, hl]
    | none =>
      by_cases he : o.feed = k
      · subst he
        cases hr : o.note.replicate <;> simp [lastObs, hl, hr]
      · have h2 : ¬ k = o.feed := fun hh => he hh.symm
        cases hr : o.note.replicate <;>
          simp [lastObs, hl, hr, he, mget_mset_ne _ _ _ _ h2, mget_mdel_ne _ _ _ h2]

theorem lastObs_feed {feeds : List ObservedFeed} {k : String} {o : ObservedFeed}
    (h : lastObs feeds k = some o) :
    o.feed = k ∧ o.note ∈ (feeds.filter (fun x => decide (x.feed = k))).map ObservedFeed.note := by
  induction feeds with
  | nil => simp [lastObs] at h
  | cons x rest ih =>
    cases hl : lastObs rest k with
    | some o' =>
      rw [lastObs, hl] at h
      cases h
      obtain ⟨h1, h2⟩ := ih hl
      refine ⟨h1, ?_⟩
      by_cases he : x.feed = k
      · simp [List.filter_cons, he]
        right
        simpa using h2
      · simp [List.filter_cons, he]
        simpa using h2
    | none =>
      rw [lastObs, hl] at h
      by_cases he : x.feed = k
      · rw [if_pos he] at h
        cases h
        exact ⟨he, by simp [List.filter_cons, he]⟩
      · rw [if_neg he] at h
        cases h

theorem loadLocalFrontier_aux (deps : Deps) (l : List String) :
    ∀ (acc : NetworkFrontier) (k : String),
      mget (l.foldl (fun acc ref => mset acc ref ⟨deps.seqOf ref, true, true⟩) acc) k =
        if k ∈ l then some ⟨deps.seqOf k, true, true⟩ else mget acc k := by
  induction l with
  | nil => intro acc k; simp
  | cons r rest ih =>
    intro acc k
    rw [List.foldl_cons, ih]
    by_cases hk : k ∈ rest
    · simp [hk]
    · by_cases hr : r = k
      · subst hr
        simp [hk]
      · have h2 : ¬ k = r := fun hh => hr hh.symm
        simp [hk, hr, h2, mget_mset_ne _ _ _ _ h2]

theorem loadLocalFrontier_get (deps : Deps) (k : String) :
    mget (loadLocalFrontier deps) k =
      if k ∈ deps.replicationList then some ⟨deps.seqOf k, true, true⟩ else none := by
  rw [loadLocalFrontier, loadLocalFrontier_aux]
  simp [mget]

theorem keysNodup_loadLocalFrontier_aux (deps : Deps) (l : List String) :
    ∀ (acc : NetworkFrontier), keysNodup acc →
      keysNodup (l.foldl (fun acc ref => mset acc ref ⟨deps.seqOf ref, true, true⟩) acc) := by
  induction l with
  | nil => intro acc h; simpa using h
  | cons r rest ih =>
    intro acc h
    rw [List.foldl_cons]
    exact ih _ (keysNodup_mset h)

theorem keysNodup_loadLocalFrontier (deps : Deps) : keysNodup (loadLocalFrontier deps) := by
  rw [loadLocalFrontier]
  exact keysNodup_loadLocalFrontier_aux deps _ [] (by simp [keysNodup])

/-! ## State-matrix characterization lemmas -/

theorem loadFrontier_cached {sm : StateMatrix} {peer : String} {r : Ref}
    (h : mget sm.openRefs peer = some r) : loadFrontier sm peer = .ok (r, sm) := by
  unfold loadFrontier
  rw [h]

theorem loadFrontier_ok_inv {sm : StateMatrix} {peer : String} {r : Ref} {sm1 : StateMatrix}
    (h : loadFrontier sm peer = .ok (r, sm1)) :
    mget sm1.openRefs peer = some r ∧
    ((sm1 = sm ∧ mget sm.openRefs peer = some r) ∨
     (mget sm.openRefs peer = none ∧ r = sm.nextRef ∧ ∃ nf,
        sm1 = { sm with heap := mset sm.heap r nf,
                        nextRef := r + 1,
                        openRefs := mset sm.openRefs peer r })) := by
  unfold loadFrontier at h
  split at h
  next r0 heq =>
    simp only [Except.ok.injEq, Prod.mk.injEq] at h
    obtain ⟨rfl, rfl⟩ := h
    exact ⟨heq, Or.inl ⟨rfl, heq⟩⟩
  next heq =>
    split at h
    next heq2 =>
      simp only [Except.ok.injEq, Prod.mk.injEq] at h
      obtain ⟨rfl, rfl⟩ := h
      exact ⟨by simp, Or.inr ⟨heq, rfl, [], rfl⟩⟩
    next heq2 => simp at h
    next heq2 => simp at h
    next j heq2 =>
      split at h
      next heq3 => simp at h
      next nf heq3 =>
        simp only [Except.ok.injEq, Prod.mk.injEq] at h
        obtain ⟨rfl, rfl⟩ := h
        exact ⟨by simp, Or.inr ⟨heq, rfl, nf, rfl⟩⟩

theorem wf_ref_lt {sm : StateMatrix} (hwf : WF sm) {p : String} {r : Ref}
    (h : mget sm.openRefs p = some r) : r < sm.nextRef :=
  hwf.1 _ (mget_mem h)

theorem wf_heap_isSome {sm : StateMatrix} (hwf : WF sm) {p : String} {r : Ref}
    (h : mget sm.openRefs p = some r) : (mget sm.heap r).isSome = true :=
  hwf.2.2.2 _ (mget_mem h)

theorem wf_openRefs_inj {sm : StateMatrix} (hwf : WF sm) {p q : String} {r : Ref}
    (hp : mget sm.openRefs p = some r) (hq : mget sm.openRefs q = some r) : p = q :=
  mget_inj hwf.2.2.1 hp hq

theorem WF_extend {sm : StateMatrix} (hwf : WF sm) {peer : String} (nf : NetworkFrontier)
    (hnone : mget sm.openRefs peer = none) :
    WF { sm with heap := mset sm.heap sm.nextRef nf,
                 nextRef := sm.nextRef + 1,
                 openRefs := mset sm.openRefs peer sm.nextRef } := by
  have hk : peer ∉ sm.openRefs.map Prod.fst := (mget_eq_none_iff _ _).1 hnone
  rw [WF]
  simp only [mset_of_mget_none hnone]
  refine ⟨?_, ?_, ?_, ?_⟩
  · intro e he
    rcases List.mem_append.1 he with hin | hin
    · exact Nat.lt_trans (hwf.1 e hin) (Nat.lt_succ_self _)
    · simp only [List.mem_singleton] at hin
      subst hin
      exact Nat.lt_succ_self _
  · rw [List.map_append, List.nodup_append]
    refine ⟨hwf.2.1, by simp, ?_⟩
    intro a ha hb
    simp only [List.map_cons, List.map_nil, List.mem_singleton] at hb
    subst hb
    exact hk ha
  · rw [List.map_append, List.nodup_append]
    refine ⟨hwf.2.2.1, by simp, ?_⟩
    intro a ha hb
    simp only [List.map_cons, List.map_nil, List.mem_singleton] at hb
    subst hb
    rcases List.mem_map.1 ha with ⟨e, he, hae⟩
    exact absurd (hae ▸ hwf.1 e he) (Nat.lt_irrefl _)
  · intro e he
    rcases List.mem_append.1 he with hin | hin
    · exact mget_mset_isSome (hwf.2.2.2 e hin)
    · simp only [List.mem_singleton] at hin
      subst hin
      simp

theorem WF_loadFrontier {sm : StateMatrix} {peer : String} {r : Ref} {sm1 : StateMatrix}
    (hwf : WF sm) (h : loadFrontier sm peer = .ok (r, sm1)) :
    WF sm1 ∧ sm.nextRef ≤ sm1.nextRef ∧ r < sm1.nextRef ∧
    sm1.files = sm.files ∧ sm1.tmps = sm.tmps ∧ sm1.self = sm.self := by
  obtain ⟨hmem, hcase⟩ := loadFrontier_ok_inv h
  rcases hcase with ⟨rfl, hro⟩ | ⟨hnone, rfl, nf, rfl⟩
  · exact ⟨hwf, Nat.le_refl _, wf_ref_lt hwf hro, rfl, rfl, rfl⟩
  · exact ⟨WF_extend hwf nf hnone, Nat.le_succ _, Nat.lt_succ_self _, rfl, rfl, rfl⟩

theorem loadFrontier_frame {sm : StateMatrix} {peer : String} {r : Ref} {sm1 : StateMatrix}
    (hwf : WF sm) (h : loadFrontier sm peer = .ok (r, sm1)) {q : String} (hq : ¬ q = peer) :
    frontierOf sm1 q = frontierOf sm q := by
  obtain ⟨hmem, hcase⟩ := loadFrontier_ok_inv h
  rcases hcase with ⟨rfl, hro⟩ | ⟨hnone, rfl, nf, rfl⟩
  · rfl
  · show (mget (mset sm.openRefs peer sm.nextRef) q).bind
        (fun r => mget (mset sm.heap sm.nextRef nf) r) = frontierOf sm q
    rw [mget_mset_ne _ _ _ _ hq]
    cases hgq : mget sm.openRefs q with
    | none => simp [frontierOf, hgq]
    | some rq =>
      have hlt : rq < sm.nextRef := wf_ref_lt hwf hgq
      simp [frontierOf, hgq, mget_mset_ne _ _ _ _ (Nat.ne_of_lt hlt)]

theorem update_eq {sm : StateMatrix} {who : String} {r : Ref} {sm1 : StateMatrix}
    (patch : NetworkFrontier) (h : loadFrontier sm who = .ok (r, sm1)) :
    update sm who patch = .ok (sm1.nextRef,
      { sm1 with heap := mset (mset sm1.heap r (overlay ((mget sm1.heap r).getD []) patch))
                              sm1.nextRef (copyNF (overlay ((mget sm1.heap r).getD []) patch)),
                 openRefs := mset sm1.openRefs who r,
                 nextRef := sm1.nextRef + 1 }) := by
  unfold update
  rw [h]

theorem update_error {sm : StateMatrix} {who : String} {e : SMErr}
    (patch : NetworkFrontier) (h : loadFrontier sm who = .error e) :
    update sm who patch = .error e := by
  unfold update
  rw [h]

theorem fill_eq {sm : StateMatrix} {who : String} {r : Ref} {sm1 : StateMatrix}
    (feeds : List ObservedFeed) (h : loadFrontier sm who = .ok (r, sm1)) :
    fill sm who feeds = .ok
      { sm1 with heap := mset sm1.heap r (applyObserved ((mget sm1.heap r).getD []) feeds),
                 openRefs := mset sm1.openRefs who r } := by
  unfold fill
  rw [h]

theorem fill_error {sm : StateMatrix} {who : String} {e : SMErr}
    (feeds : List ObservedFeed) (h : loadFrontier sm who = .error e) :
    fill sm who feeds = .error e := by
  unfold fill
  rw [h]

/-! ## Operation inversion, well-formedness preservation and frame lemmas -/

theorem update_ok_inv {sm : StateMatrix} {who : String} {patch : NetworkFrontier}
    {r2 : Ref} {sm' : StateMatrix} (h : update sm who patch = .ok (r2, sm')) :
    ∃ r sm1, loadFrontier sm who = .ok (r, sm1) ∧ r2 = sm1.nextRef ∧
      sm' = { sm1 with
                heap := mset (mset sm1.heap r (overlay ((mget sm1.heap r).getD []) patch))
                             sm1.nextRef (copyNF (overlay ((mget sm1.heap r).getD []) patch)),
                openRefs := mset sm1.openRefs who r,
                nextRef := sm1.nextRef + 1 } := by
  cases hlf : loadFrontier sm who with
  | error e => rw [update_error patch hlf] at h; simp at h
  | ok pr =>
    obtain ⟨r, sm1⟩ := pr
    rw [update_eq patch hlf] at h
    simp only [Except.ok.injEq, Prod.mk.injEq] at h
    exact ⟨r, sm1, rfl, h.1.symm, h.2.symm⟩

theorem fill_ok_inv {sm : StateMatrix} {who : String} {feeds : List ObservedFeed}
    {sm' : StateMatrix} (h : fill sm who feeds = .ok sm') :
    ∃ r sm1, loadFrontier sm who = .ok (r, sm1) ∧
      sm' = { sm1 with
                heap := mset sm1.heap r (applyObserved ((mget sm1.heap r).getD []) feeds),
                openRefs := mset sm1.openRefs who r } := by
  cases hlf : loadFrontier sm who with
  | error e => rw [fill_error feeds hlf] at h; simp at h
  | ok pr =>
    obtain ⟨r, sm1⟩ := pr
    rw [fill_eq feeds hlf] at h
    simp only [Except.ok.injEq] at h
    exact ⟨r, sm1, rfl, h.symm⟩

theorem WF_update {sm : StateMatrix} {who : String} {patch : NetworkFrontier}
    {r2 : Ref} {sm' : StateMatrix} (hwf : WF sm) (h : update sm who patch = .ok (r2, sm')) :
    WF sm' := by
  obtain ⟨r, sm1, hlf, _, rfl⟩ := update_ok_inv h
  obtain ⟨hwf1, _, hrlt, _⟩ := WF_loadFrontier hwf hlf
  have hms : mget sm1.openRefs who = some r := (loadFrontier_ok_inv hlf).1
  have hor : mset sm1.openRefs who r = sm1.openRefs := mset_eq_of_mget hms
  refine ⟨?_, ?_, ?_, ?_⟩
  · show ∀ e ∈ mset sm1.openRefs who r, e.2 < sm1.nextRef + 1
    rw [hor]
    intro e he
    exact Nat.lt_trans (hwf1.1 e he) (Nat.lt_succ_self _)
  · show ((mset sm1.openRefs who r).map Prod.fst).Nodup
    rw [hor]
    exact hwf1.2.1
  · show ((mset sm1.openRefs who r).map Prod.snd).Nodup
    rw [hor]
    exact hwf1.2.2.1
  · show ∀ e ∈ mset sm1.openRefs who r, (mget _ e.2).isSome = true
    rw [hor]
    intro e he
    exact mget_mset_isSome (mget_mset_isSome (hwf1.2.2.2 e he))

theorem WF_fill {sm : StateMatrix} {who : String} {feeds : List ObservedFeed}
    {sm' : StateMatrix} (hwf : WF sm) (h : fill sm who feeds = .ok sm') :
    WF sm' := by
  obtain ⟨r, sm1, hlf, rfl⟩ := fill_ok_inv h
  obtain ⟨hwf1, _, hrlt, _⟩ := WF_loadFrontier hwf hlf
  have hms : mget sm1.openRefs who = some r := (loadFrontier_ok_inv hlf).1
  have hor : mset sm1.openRefs who r = sm1.openRefs := mset_eq_of_mget hms
  refine ⟨?_, ?_, ?_, ?_⟩
  · show ∀ e ∈ mset sm1.openRefs who r, e.2 < sm1.nextRef
    rw [hor]
    exact hwf1.1
  · show ((mset sm1.openRefs who r).map Prod.fst).Nodup
    rw [hor]
    exact hwf1.2.1
  · show ((mset sm1.openRefs who r).map Prod.snd).Nodup
    rw [hor]
    exact hwf1.2.2.1
  · show ∀ e ∈ mset sm1.openRefs who r, (mget _ e.2).isSome = true
    rw [hor]
    intro e he
    exact mget_mset_isSome (hwf1.2.2.2 e he)

theorem WF_runOp1 {sm : StateMatrix} (hwf : WF sm) (op : SMOp) : WF (runOp1 sm op) := by
  cases op with
  | updateOp who patch =>
    simp only [runOp1]
    cases h : update sm who patch with
    | error e => exact hwf
    | ok pr =>
      obtain ⟨r2, sm'⟩ := pr
      exact WF_update hwf h
  | fillOp who feeds =>
    simp only [runOp1]
    cases h : fill sm who feeds with
    | error e => exact hwf
    | ok sm' => exact WF_fill hwf h

theorem frontierOf_update_ne {sm : StateMatrix} {who : String} {patch : NetworkFrontier}
    {r2 : Ref} {sm' : StateMatrix} (hwf : WF sm) (h : update sm who patch = .ok (r2, sm'))
    {peer : String} (hne : ¬ who = peer) : frontierOf sm' peer = frontierOf sm peer := by
  obtain ⟨r, sm1, hlf, _, rfl⟩ := update_ok_inv h
  obtain ⟨hwf1, _, hrlt, _⟩ := WF_loadFrontier hwf hlf
  have hms : mget sm1.openRefs who = some r := (loadFrontier_ok_inv hlf).1
  have hframe : frontierOf sm1 peer = frontierOf sm peer :=
    loadFrontier_frame hwf hlf (fun hh => hne hh.symm)
  rw [← hframe]
  show (mget (mset sm1.openRefs who r) peer).bind
      (fun rr => mget (mset (mset sm1.heap r (overlay ((mget sm1.heap r).getD []) patch))
                            sm1.nextRef (copyNF (overlay ((mget sm1.heap r).getD []) patch))) rr) =
    frontierOf sm1 peer
  rw [mget_mset_ne _ _ _ _ (fun hh => hne hh.symm)]
  cases hgq : mget sm1.openRefs peer with
  | none => simp [frontierOf, hgq]
  | some rq =>
    have h1 : ¬ rq = r := fun hh => hne (wf_openRefs_inj hwf1 hms (hh ▸ hgq))
    have h2 : ¬ rq = sm1.nextRef := Nat.ne_of_lt (wf_ref_lt hwf1 hgq)
    simp [frontierOf, hgq, mget_mset_ne _ _ _ _ h2, mget_mset_ne _ _ _ _ h1]

theorem frontierOf_fill_ne {sm : StateMatrix} {who : String} {feeds : List ObservedFeed}
    {sm' : StateMatrix} (hwf : WF sm) (h : fill sm who feeds = .ok sm')
    {peer : String} (hne : ¬ who = peer) : frontierOf sm' peer = frontierOf sm peer := by
  obtain ⟨r, sm1, hlf, rfl⟩ := fill_ok_inv h
  obtain ⟨hwf1, _, hrlt, _⟩ := WF_loadFrontier hwf hlf
  have hms : mget sm1.openRefs who = some r := (loadFrontier_ok_inv hlf).1
  have hframe : frontierOf sm1 peer = frontierOf sm peer :=
    loadFrontier_frame hwf hlf (fun hh => hne hh.symm)
  rw [← hframe]
  show (mget (mset sm1.openRefs who r) peer).bind
      (fun rr => mget (mset sm1.heap r (applyObserved ((mget sm1.heap r).getD []) feeds)) rr) =
    frontierOf sm1 peer
  rw [mget_mset_ne _ _ _ _ (fun hh => hne hh.symm)]
  cases hgq : mget sm1.openRefs peer with
  | none => simp [frontierOf, hgq]
  | some rq =>
    have h1 : ¬ rq = r := fun hh => hne (wf_openRefs_inj hwf1 hms (hh ▸ hgq))
    simp [frontierOf, hgq, mget_mset_ne _ _ _ _ h1]

theorem frontierOf_runOp1_ne {sm : StateMatrix} {op : SMOp} {peer : String}
    (hwf : WF sm) (hne : ¬ opWho op = peer) :
    frontierOf (runOp1 sm op) peer = frontierOf sm peer := by
  cases op with
  | updateOp who patch =>
    simp only [runOp1]
    cases h : update sm who patch with
    | error e => rfl
    | ok pr =>
      obtain ⟨r2, sm'⟩ := pr
      exact frontierOf_update_ne hwf h hne
  | fillOp who feeds =>
    simp only [runOp1]
    cases h : fill sm who feeds with
    | error e => rfl
    | ok sm' => exact frontierOf_fill_ne hwf h hne

/-! ## Monotonicity of the recorded sequence under non-rewinding calls -/

theorem seqAt_update_self {sm : StateMatrix} {who : String} {patch : NetworkFrontier}
    {r : Ref} {nf : NetworkFrontier} (hwf : WF sm)
    (ho : mget sm.openRefs who = some r) (hh : mget sm.heap r = some nf) (feed : String) :
    seqAt (runOp1 sm (.updateOp who patch)) who feed =
      (mget (overlay nf patch) feed).map Note.seq := by
  have hlf : loadFrontier sm who = .ok (r, sm) := loadFrontier_cached ho
  have hupd := update_eq patch hlf
  have hor : mset sm.openRefs who r = sm.openRefs := mset_eq_of_mget ho
  have hne : ¬ r = sm.nextRef := Nat.ne_of_lt (wf_ref_lt hwf ho)
  simp only [runOp1, hupd]
  unfold seqAt frontierNote frontierOf
  simp [hor, ho, hh, mget_mset_ne _ _ _ _ hne]

theorem seqAt_fill_self {sm : StateMatrix} {who : String} {feeds : List ObservedFeed}
    {r : Ref} {nf : NetworkFrontier} (hwf : WF sm)
    (ho : mget sm.openRefs who = some r) (hh : mget sm.heap r = some nf) (feed : String) :
    seqAt (runOp1 sm (.fillOp who feeds)) who feed =
      (mget (applyObserved nf feeds) feed).map Note.seq := by
  have hlf : loadFrontier sm who = .ok (r, sm) := loadFrontier_cached ho
  have hfill := fill_eq feeds hlf
  have hor : mset sm.openRefs who r = sm.openRefs := mset_eq_of_mget ho
  simp only [runOp1, hfill]
  unfold seqAt frontierNote frontierOf
  simp [hor, ho, hh]

theorem seqAt_runOp1_mono {sm : StateMatrix} {op : SMOp} {peer feed : String} {s : Int}
    (hwf : WF sm) (hop : opOk sm peer feed op) (hs : seqAt sm peer feed = some s) :
    ∃ s', seqAt (runOp1 sm op) peer feed = some s' ∧ s ≤ s' := by
  by_cases hw : opWho op = peer
  case neg =>
    refine ⟨s, ?_, le_refl s⟩
    unfold seqAt frontierNote
    rw [frontierOf_runOp1_ne hwf hw]
    exact hs
  case pos =>
    have hseq := hs
    unfold seqAt frontierNote frontierOf at hs
    cases ho : mget sm.openRefs peer with
    | none => rw [ho] at hs; simp at hs
    | some r =>
      rw [ho] at hs
      simp only [Option.some_bind] at hs
      cases hh : mget sm.heap r with
      | none => rw [hh] at hs; simp at hs
      | some nf =>
        rw [hh] at hs
        simp only [Option.some_bind] at hs
        cases hn : mget nf feed with
        | none => rw [hn] at hs; simp at hs
        | some note =>
          rw [hn] at hs
          simp at hs
          cases op with
          | updateOp who patch =>
            have hwho : who = peer := hw
            subst hwho
            rw [seqAt_update_self hwf ho hh feed, overlay_get]
            cases hlv : lastVal patch feed with
            | some v =>
              refine ⟨v.seq, by simp, ?_⟩
              have hvmem : v ∈ notesFor (.updateOp who patch) who feed := by
                simp only [notesFor, if_pos rfl]
                exact lastVal_mem_filter hlv
              have hle := (hop v hvmem).2
              rw [hseq] at hle
              simpa using hle
            | none =>
              refine ⟨note.seq, by simp [hn], ?_⟩
              rw [hs]
          | fillOp who feeds =>
            have hwho : who = peer := hw
            subst hwho
            rw [seqAt_fill_self hwf ho hh feed, applyObserved_get]
            cases hlv : lastObs feeds feed with
            | some o =>
              obtain ⟨hof, homem⟩ := lastObs_feed hlv
              have hmem : o.note ∈ notesFor (.fillOp who feeds) who feed := by
                simp only [notesFor, if_pos rfl]
                exact homem
              obtain ⟨hrep, hle⟩ := hop o.note hmem
              rw [hseq] at hle
              refine ⟨o.note.seq, by simp [hrep], ?_⟩
              simpa using hle
            | none =>
              refine ⟨note.seq, by simp [hn], ?_⟩
              rw [hs]

theorem seqAt_runOps_mono {peer feed : String} :
    ∀ (ops : List SMOp) (sm : StateMatrix) (s : Int), WF sm →
      chainOk sm peer feed ops → seqAt sm peer feed = some s →
      ∃ s', seqAt (runOps sm ops) peer feed = some s' ∧ s ≤ s' := by
  intro ops
  induction ops with
  | nil =>
    intro sm s hwf hchain hs
    exact ⟨s, hs, le_refl s⟩
  | cons op rest ih =>
    intro sm s hwf hchain hs
    obtain ⟨hop, hrest⟩ := hchain
    obtain ⟨s1, hs1, hle1⟩ := seqAt_runOp1_mono hwf hop hs
    obtain ⟨s', hs', hle2⟩ := ih (runOp1 sm op) s1 (WF_runOp1 hwf op) hrest hs1
    exact ⟨s', hs', le_trans hle1 hle2⟩

/-! ## Claim theorems: trust-graph authorizer -/

/-- C1: for every graph, origin, target and hop bound, when the trust graph is
non-empty, the origin does not directly follow the target, and the
shortest-path lookup succeeds (the origin is a node), Authorize admits exactly
when the distance is finite and at most maxHops; in every other case it
returns ErrOutOfReach carrying that distance and the hop bound, rejecting in
particular distances of minus infinity (unreachable) and plus infinity
(blocked). -/
theorem C1_authorize_hop_bound (g : TrustGraph) (frm tgt : String) (maxHops : Int)
    (h0 : g.nodes.length ≠ 0) (h1 : g.follows frm tgt = false) (h2 : g.hasNode frm = true) :
    (authorize g frm tgt maxHops = .ok ↔
      ∃ n, g.dist frm tgt = .fin n ∧ (n : Int) ≤ maxHops) ∧
    (authorize g frm tgt maxHops ≠ .ok →
      authorize g frm tgt maxHops = .outOfReach (g.dist frm tgt) maxHops) := by
  unfold authorize
  rw [if_neg h0, if_neg (by simp [h1]), if_pos (by simp [h2])]
  cases hd : g.dist frm tgt with
  | neginf =>
    refine ⟨⟨fun h => by simp at h, ?_⟩, fun _ => by simp⟩
    rintro ⟨n, hn, _⟩
    cases hn
  | posinf =>
    refine ⟨⟨fun h => by simp at h, ?_⟩, fun _ => by simp⟩
    rintro ⟨n, hn, _⟩
    cases hn
  | fin n =>
    constructor
    · constructor
      · intro h
        by_cases hgt : (n : Int) > maxHops
        · simp [hgt] at h
        · exact ⟨n, rfl, by omega⟩
      · rintro ⟨m, hm, hle⟩
        cases hm
        have hle' : ¬ ((n : Int) > maxHops) := by omega
        simp [hle']
    · intro h
      by_cases hgt : (n : Int) > maxHops
      · simp [hgt]
      · exfalso
        apply h
        simp [hgt]

/-- Witness for C1 at the two-hop graph A follows X follows B with maxHops 2. -/
theorem C1_authorize_hop_bound_witness :
    (⟨["A", "X", "B"], [("A", "X"), ("X", "B")], []⟩ : TrustGraph).nodes.length ≠ 0 ∧
    TrustGraph.follows ⟨["A", "X", "B"], [("A", "X"), ("X", "B")], []⟩ ("A") ("B") = false ∧
    TrustGraph.hasNode ⟨["A", "X", "B"], [("A", "X"), ("X", "B")], []⟩ ("A") = true ∧
    (authorize ⟨["A", "X", "B"], [("A", "X"), ("X", "B")], []⟩ ("A") ("B") 2 = .ok ↔
      ∃ n, TrustGraph.dist ⟨["A", "X", "B"], [("A", "X"), ("X", "B")], []⟩ ("A") ("B") = .fin n ∧
        (n : Int) ≤ 2) :=
  ⟨by decide, by decide, by decide,
   (C1_authorize_hop_bound _ ("A") ("B") 2 (by decide) (by decide) (by decide)).1⟩

/-- C8: for every trust graph with zero nodes, Authorize admits (trust on first
use), whatever the origin, target and hop bound. -/
theorem C8_authorize_empty_graph_tofu (g : TrustGraph) (frm tgt : String) (maxHops : Int)
    (h : g.nodes = []) : authorize g frm tgt maxHops = .ok := by
  unfold authorize
  rw [if_pos (by simp [h])]

/-- Witness for C8 on the empty graph. -/
theorem C8_authorize_empty_graph_tofu_witness :
    (⟨[], [], []⟩ : TrustGraph).nodes = [] ∧
    authorize ⟨[], [], []⟩ ("A") ("B") 2 = .ok :=
  ⟨rfl, C8_authorize_empty_graph_tofu _ ("A") ("B") 2 rfl⟩

/-- C5 counterexample: on the non-empty graph with the single node B, the
origin A is not a node, yet Authorize returns nil (admits) instead of handing
the NoSuchFrom error to its caller: the code swallows ErrNoSuchFrom from the
Dijkstra construction and admits. -/
theorem C5_noSuchFrom_counterexample :
    authorize ⟨["B"], [], []⟩ ("A") ("B") 2 = .ok ∧
    ¬ authorize ⟨["B"], [], []⟩ ("A") ("B") 2 = .noSuchFrom ("A") :=
  ⟨by decide, by decide⟩

/-- C5 amended: for every non-empty well-formed trust graph (follow edges start
at nodes) whose node set does not contain the origin, Authorize admits
(returns nil), treating the internal NoSuchFrom condition as a bootstrap
admit rather than returning the error. -/
theorem C5_noSuchFrom_admits (g : TrustGraph) (frm tgt : String) (maxHops : Int)
    (h0 : g.nodes.length ≠ 0) (h2 : g.hasNode frm = false)
    (hwf : ∀ e ∈ g.followEdges, e.1 ∈ g.nodes) :
    authorize g frm tgt maxHops = .ok := by
  have h2' : frm ∉ g.nodes := by
    unfold TrustGraph.hasNode at h2
    simpa using h2
  have h1 : g.follows frm tgt = false := by
    unfold TrustGraph.follows
    simp only [decide_eq_false_iff_not]
    intro hmem
    exact h2' (hwf _ hmem)
  unfold authorize
  rw [if_neg h0, if_neg (by simp [h1]), if_neg (by simp [TrustGraph.hasNode, h2'])]

/-- Witness for the amended C5 on the single-node graph. -/
theorem C5_noSuchFrom_admits_witness :
    (⟨["B"], [], []⟩ : TrustGraph).nodes.length ≠ 0 ∧
    TrustGraph.hasNode ⟨["B"], [], []⟩ ("A") = false ∧
    authorize ⟨["B"], [], []⟩ ("A") ("B") 2 = .ok :=
  ⟨by decide, by decide,
   C5_noSuchFrom_admits _ ("A") ("B") 2 (by decide) (by decide) (by decide)⟩

/-! ## Remaining persistence lemmas -/

theorem mdel_of_mget_none {κ β : Type} [DecidableEq κ] {l : List (κ × β)} {k : κ}
    (h : mget l k = none) : mdel l k = l := by
  induction l with
  | nil => rfl
  | cons e rest ih =>
    by_cases he : e.1 = k
    · simp [mget, he] at h
    · simp [mget, he] at h
      simp [mdel, he, ih h]

theorem decodeNote_encodeNote (n : Note) : decodeNote (encodeNote n) = some n := by
  simp [encodeNote, decodeNote, mget]

theorem decodeFields_encode (nf : NetworkFrontier) :
    decodeFields (nf.map (fun e => (e.1, encodeNote e.2))) = some nf := by
  induction nf with
  | nil => rfl
  | cons e rest ih =>
    obtain ⟨k, n⟩ := e
    simp [decodeFields, decodeNote_encodeNote, ih]

/-- The round-trip law of the state-file format: decoding an encoded frontier
yields the frontier back. -/
theorem decode_encode (nf : NetworkFrontier) : decodeFrontier (encodeFrontier nf) = some nf := by
  simp [decodeFrontier, encodeFrontier, decodeFields_encode]

theorem loadFrontier_error_inv {sm : StateMatrix} {peer : String} {e : SMErr}
    (h : loadFrontier sm peer = .error e) :
    mget sm.openRefs peer = none ∧
    ((e = .ioError ∧ mget sm.files peer = some .unreadable) ∨
     (e = .decodeError ∧
       (mget sm.files peer = some .emptyFile ∨
        ∃ j, mget sm.files peer = some (.content j) ∧ decodeFrontier j = none))) := by
  unfold loadFrontier at h
  split at h
  next r0 heq => simp at h
  next heq =>
    split at h
    next heq2 => simp at h
    next heq2 =>
      simp only [Except.error.injEq] at h
      exact ⟨heq, Or.inl ⟨h.symm, heq2⟩⟩
    next heq2 =>
      simp only [Except.error.injEq] at h
      exact ⟨heq, Or.inr ⟨h.symm, Or.inl heq2⟩⟩
    next j heq2 =>
      split at h
      next heq3 =>
        simp only [Except.error.injEq] at h
        exact ⟨heq, Or.inr ⟨h.symm, Or.inr ⟨j, heq2, heq3⟩⟩⟩
      next nf heq3 => simp at h

theorem loadFrontier_content {sm : StateMatrix} {peer : String} {j : Json} {nf : NetworkFrontier}
    (hnc : mget sm.openRefs peer = none)
    (hf : mget sm.files peer = some (.content j)) (hd : decodeFrontier j = some nf) :
    loadFrontier sm peer = .ok (sm.nextRef,
      { sm with heap := mset sm.heap sm.nextRef nf, nextRef := sm.nextRef + 1,
                openRefs := mset sm.openRefs peer sm.nextRef }) := by
  simp only [loadFrontier, hnc, hf, hd]

/-! ## Claim theorems: state matrix -/

/-- C3 counterexample: an Update whose incoming note has replicate true but a
smaller sequence rewinds the recorded sequence for the pair (P, F) from 5 to 3,
so the sequence does decrease across a successful Update with a replicate-true
note. -/
theorem C3_seq_monotonic_counterexample :
    seqAt ⟨"s", [("P", 0)], [(0, [("F", ⟨5, true, true⟩)])], 1, [], []⟩ ("P") ("F") = some 5 ∧
    ((updateRes ⟨"s", [("P", 0)], [(0, [("F", ⟨5, true, true⟩)])], 1, [], []⟩ ("P")
        [("F", ⟨3, true, true⟩)]).bind
      (fun sm' => seqAt sm' ("P") ("F"))) = some 3 :=
  ⟨by decide, by decide⟩

/-- C3 amended: for every peer and feed, across any sequence of Update and Fill
calls in which every incoming note for that feed has replicate true and a
sequence no smaller than the one recorded at the time of the call, the sequence
recorded in the state matrix for that pair never decreases (failed calls leave
the matrix unchanged, so this covers every sequence of successful calls). -/
theorem C3_seq_monotonic (sm : StateMatrix) (peer feed : String) (ops : List SMOp) (s : Int)
    (hwf : WF sm) (hchain : chainOk sm peer feed ops) (hs : seqAt sm peer feed = some s) :
    ∃ s', seqAt (runOps sm ops) peer feed = some s' ∧ s ≤ s' :=
  seqAt_runOps_mono ops sm s hwf hchain hs

/-- Witness for the amended C3: an Update raising the sequence to 7 followed by
a Fill raising it to 9. -/
theorem C3_seq_monotonic_witness :
    WF (⟨"s", [("P", 0)], [(0, [("F", ⟨5, true, true⟩)])], 1, [], []⟩ : StateMatrix) ∧
    chainOk ⟨"s", [("P", 0)], [(0, [("F", ⟨5, true, true⟩)])], 1, [], []⟩ ("P") ("F")
      [.updateOp ("P") [("F", ⟨7, true, true⟩)], .fillOp ("P") [⟨"F", ⟨9, true, true⟩⟩]] ∧
    (∃ s', seqAt (runOps ⟨"s", [("P", 0)], [(0, [("F", ⟨5, true, true⟩)])], 1, [], []⟩
        [.updateOp ("P") [("F", ⟨7, true, true⟩)], .fillOp ("P") [⟨"F", ⟨9, true, true⟩⟩]])
        ("P") ("F") = some s' ∧ 5 ≤ s') :=
  ⟨by decide, by decide,
   C3_seq_monotonic _ ("P") ("F") _ 5 (by decide) (by decide) (by decide)⟩

/-- C4: Update overlays each entry of the patch onto the stored frontier
(per-entry overwrite, entries absent from the patch kept unchanged), stores the
merged frontier back under the peer's cached reference, and returns a freshly
allocated copy: the returned reference differs from the cached one, holds the
same entries, and overwriting the map behind the returned reference leaves the
frontier held in the cache unchanged. -/
theorem C4_update_merge_copy (sm : StateMatrix) (who : String) (patch : NetworkFrontier)
    (r : Ref) (sm1 : StateMatrix) (current : NetworkFrontier)
    (hwf : WF sm) (hpatch : keysNodup patch) (hcurrent : keysNodup current)
    (hload : loadFrontier sm who = .ok (r, sm1)) (hcur : mget sm1.heap r = some current) :
    ∃ r2 sm',
      update sm who patch = .ok (r2, sm') ∧
      (∀ k, mget (overlay current patch) k =
        match mget patch k with
        | some v => some v
        | none => mget current k) ∧
      mget sm'.openRefs who = some r ∧
      mget sm'.heap r = some (overlay current patch) ∧
      ¬ r2 = r ∧
      mget sm'.heap r2 = some (copyNF (overlay current patch)) ∧
      (∀ k, mget (copyNF (overlay current patch)) k = mget (overlay current patch) k) ∧
      (∀ nf', frontierOf { sm' with heap := mset sm'.heap r2 nf' } who = frontierOf sm' who) := by
  obtain ⟨hwf1, hmono, hrlt, _⟩ := WF_loadFrontier hwf hload
  have hms : mget sm1.openRefs who = some r := (loadFrontier_ok_inv hload).1
  have hupd := update_eq patch hload
  simp only [hcur, Option.getD_some] at hupd
  have hner : ¬ r = sm1.nextRef := Nat.ne_of_lt hrlt
  refine ⟨sm1.nextRef, _, hupd, ?_, ?_, ?_, ?_, ?_, ?_, ?_⟩
  · intro k
    rw [overlay_get, lastVal_eq_mget hpatch]
  · simp
  · rw [show ({ sm1 with
        heap := mset (mset sm1.heap r (overlay current patch))
                     sm1.nextRef (copyNF (overlay current patch)),
        openRefs := mset sm1.openRefs who r,
        nextRef := sm1.nextRef + 1 } : StateMatrix).heap =
      mset (mset sm1.heap r (overlay current patch))
           sm1.nextRef (copyNF (overlay current patch)) from rfl]
    rw [mget_mset_ne _ _ _ _ hner, mget_mset_self]
  · exact fun hh => hner hh.symm
  · simp
  · intro k
    exact copyNF_get_of_nodup (keysNodup_overlay hcurrent) k
  · intro nf'
    unfold frontierOf
    rw [show ({ sm1 with
        heap := mset (mset sm1.heap r (overlay current patch))
                     sm1.nextRef (copyNF (overlay current patch)),
        openRefs := mset sm1.openRefs who r,
        nextRef := sm1.nextRef + 1 } : StateMatrix).openRefs = mset sm1.openRefs who r from rfl]
    simp only [mget_mset_self, Option.some_bind]
    rw [mget_mset_ne _ _ _ _ hner]

/-- Witness for C4 at a one-entry cached frontier and a one-entry patch. -/
theorem C4_update_merge_copy_witness :
    WF (⟨"s", [("P", 0)], [(0, [("F", ⟨1, true, true⟩)])], 1, [], []⟩ : StateMatrix) ∧
    keysNodup ([("G", (⟨2, true, true⟩ : Note))] : NetworkFrontier) ∧
    keysNodup ([("F", (⟨1, true, true⟩ : Note))] : NetworkFrontier) ∧
    (∃ r2 sm',
      update ⟨"s", [("P", 0)], [(0, [("F", ⟨1, true, true⟩)])], 1, [], []⟩ ("P")
          [("G", ⟨2, true, true⟩)] = .ok (r2, sm') ∧
      (∀ k, mget (overlay [("F", ⟨1, true, true⟩)] [("G", ⟨2, true, true⟩)]) k =
        match mget [("G", (⟨2, true, true⟩ : Note))] k with
        | some v => some v
        | none => mget [("F", (⟨1, true, true⟩ : Note))] k) ∧
      mget sm'.openRefs ("P") = some 0 ∧
      mget sm'.heap 0 = some (overlay [("F", ⟨1, true, true⟩)] [("G", ⟨2, true, true⟩)]) ∧
      ¬ r2 = 0 ∧
      mget sm'.heap r2 = some (copyNF (overlay [("F", ⟨1, true, true⟩)] [("G", ⟨2, true, true⟩)])) ∧
      (∀ k, mget (copyNF (overlay [("F", ⟨1, true, true⟩)] [("G", ⟨2, true, true⟩)])) k =
        mget (overlay [("F", ⟨1, true, true⟩)] [("G", ⟨2, true, true⟩)]) k) ∧
      (∀ nf', frontierOf { sm' with heap := mset sm'.heap r2 nf' } ("P") =
        frontierOf sm' ("P"))) :=
  ⟨by decide, by decide, by decide,
   C4_update_merge_copy _ ("P") _ 0 _ _ (by decide) (by decide) (by decide) rfl rfl⟩

/-- C7: Fill updates the peer's frontier entry by entry: for each feed, the
last observed entry wins, a replicate-true note being written and a
replicate-false note deleting the entry, while feeds not in the list keep
their notes; the result is stored back under the peer's cached reference. -/
theorem C7_fill_upsert (sm : StateMatrix) (who : String) (feeds : List ObservedFeed)
    (r : Ref) (sm1 : StateMatrix) (nf : NetworkFrontier)
    (hload : loadFrontier sm who = .ok (r, sm1)) (hnf : mget sm1.heap r = some nf) :
    ∃ sm',
      fill sm who feeds = .ok sm' ∧
      mget sm'.openRefs who = some r ∧
      mget sm'.heap r = some (applyObserved nf feeds) ∧
      (∀ k, mget (applyObserved nf feeds) k =
        match lastObs feeds k with
        | some o => if o.note.replicate then some o.note else none
        | none => mget nf k) := by
  have hfill := fill_eq feeds hload
  simp only [hnf, Option.getD_some] at hfill
  exact ⟨_, hfill, by simp, by simp, fun k => applyObserved_get feeds nf k⟩

/-- Witness for C7: one write and one delete against a two-entry frontier. -/
theorem C7_fill_upsert_witness :
    (∃ sm',
      fill ⟨"s", [("P", 0)], [(0, [("F", ⟨1, true, true⟩), ("G", ⟨2, true, true⟩)])], 1, [], []⟩
          ("P") [⟨"F", ⟨4, true, true⟩⟩, ⟨"G", ⟨-1, false, false⟩⟩] = .ok sm' ∧
      mget sm'.openRefs ("P") = some 0 ∧
      mget sm'.heap 0 = some (applyObserved [("F", ⟨1, true, true⟩), ("G", ⟨2, true, true⟩)]
        [⟨"F", ⟨4, true, true⟩⟩, ⟨"G", ⟨-1, false, false⟩⟩]) ∧
      (∀ k, mget (applyObserved [("F", ⟨1, true, true⟩), ("G", ⟨2, true, true⟩)]
          [⟨"F", ⟨4, true, true⟩⟩, ⟨"G", ⟨-1, false, false⟩⟩]) k =
        match lastObs [⟨"F", ⟨4, true, true⟩⟩, ⟨"G", ⟨-1, false, false⟩⟩] k with
        | some o => if o.note.replicate then some o.note else none
        | none => mget [("F", (⟨1, true, true⟩ : Note)), ("G", ⟨2, true, true⟩)] k)) :=
  C7_fill_upsert _ ("P") _ 0 _ _ rfl rfl

/-- C9: for every peer with no cached frontier, Inspect is load-or-zero: a
missing state file yields the empty frontier with no error, and an error
arises only from an open failure other than file-not-found (ioError) or from a
JSON decode failure of an existing file (decodeError). -/
theorem C9_inspect_load_or_zero (sm : StateMatrix) (peer : String)
    (hnc : mget sm.openRefs peer = none) :
    (mget sm.files peer = none →
      ∃ sm', inspect sm peer = .ok (sm.nextRef, sm') ∧
        mget sm'.heap sm.nextRef = some ([] : NetworkFrontier)) ∧
    (∀ e, inspect sm peer = .error e →
      (e = .ioError ∧ mget sm.files peer = some .unreadable) ∨
      (e = .decodeError ∧
        (mget sm.files peer = some .emptyFile ∨
         ∃ j, mget sm.files peer = some (.content j) ∧ decodeFrontier j = none))) := by
  constructor
  · intro hf
    have hmain : inspect sm peer = .ok (sm.nextRef,
        { sm with heap := mset sm.heap sm.nextRef [],
                  nextRef := sm.nextRef + 1,
                  openRefs := mset sm.openRefs peer sm.nextRef }) := by
      simp only [inspect, loadFrontier, hnc, hf]
    exact ⟨_, hmain, by simp⟩
  · intro e he
    exact (loadFrontier_error_inv he).2

/-- Witness for C9 at the freshly created matrix with no files. -/
theorem C9_inspect_load_or_zero_witness :
    mget (⟨"s", [], [], 0, [], []⟩ : StateMatrix).openRefs ("P") = none ∧
    (∃ sm', inspect ⟨"s", [], [], 0, [], []⟩ ("P") = .ok (0, sm') ∧
      mget sm'.heap 0 = some ([] : NetworkFrontier)) :=
  ⟨rfl, (C9_inspect_load_or_zero ⟨"s", [], [], 0, [], []⟩ ("P") rfl).1 rfl⟩

/-- C10: for every peer with no frontier in the open cache, save returns nil
without renaming anything, and so does SaveAndClose: the committed state files
are untouched and the only filesystem effect is creating or truncating the
temporary .new file. -/
theorem C10_save_uncached_noop (sm : StateMatrix) (peer : String)
    (h : mget sm.openRefs peer = none) :
    save sm peer = .ok { sm with tmps := mset sm.tmps peer FileData.emptyFile } ∧
    saveAndClose sm peer = .ok { sm with tmps := mset sm.tmps peer FileData.emptyFile } ∧
    ({ sm with tmps := mset sm.tmps peer FileData.emptyFile } : StateMatrix).files = sm.files := by
  have hsave : save sm peer = .ok { sm with tmps := mset sm.tmps peer FileData.emptyFile } := by
    simp only [save, h]
  refine ⟨hsave, ?_, rfl⟩
  unfold saveAndClose
  rw [hsave]
  simp [mdel_of_mget_none h]

/-- Witness for C10 on a matrix with an empty cache. -/
theorem C10_save_uncached_noop_witness :
    mget (⟨"s", [], [], 0, [], []⟩ : StateMatrix).openRefs ("P") = none ∧
    save ⟨"s", [], [], 0, [], []⟩ ("P") = .ok ⟨"s", [], [], 0, [], [("P", FileData.emptyFile)]⟩ :=
  ⟨rfl, (C10_save_uncached_noop ⟨"s", [], [], 0, [], []⟩ ("P") rfl).1⟩

/-- C6: for every valid cached frontier, SaveAndClose commits the JSON encoding
of the frontier to the peer's state file by writing the temporary file and
renaming it, and a subsequent loadFrontier decodes the file back to the very
frontier that was saved. -/
theorem C6_frontier_roundtrip (sm : StateMatrix) (peer : String) (r : Ref) (nf : NetworkFrontier)
    (hr : mget sm.openRefs peer = some r) (hnf : mget sm.heap r = some nf)
    (hvalid : keysNodup nf) :
    ∃ sm', saveAndClose sm peer = .ok sm' ∧
      mget sm'.files peer = some (.content (encodeFrontier nf)) ∧
      ∃ r' sm'', loadFrontier sm' peer = .ok (r', sm'') ∧ mget sm''.heap r' = some nf := by
  have hsc : saveAndClose sm peer = .ok { sm with
      openRefs := mdel sm.openRefs peer,
      files := mset sm.files peer (FileData.content (encodeFrontier nf)),
      tmps := mdel (mset sm.tmps peer FileData.emptyFile) peer } := by
    simp only [saveAndClose, save, hr, hnf, Option.getD_some]
  refine ⟨_, hsc, by simp, ?_⟩
  have hload2 := @loadFrontier_content { sm with
      openRefs := mdel sm.openRefs peer,
      files := mset sm.files peer (FileData.content (encodeFrontier nf)),
      tmps := mdel (mset sm.tmps peer FileData.emptyFile) peer }
    peer (encodeFrontier nf) nf (by simp) (by simp) (decode_encode nf)
  exact ⟨_, _, hload2, by simp⟩

/-- Witness for C6 at a one-entry frontier. -/
theorem C6_frontier_roundtrip_witness :
    mget (⟨"s", [("P", 0)], [(0, [("F", ⟨5, true, true⟩)])], 1, [], []⟩ : StateMatrix).openRefs
        ("P") = some 0 ∧
    keysNodup ([("F", (⟨5, true, true⟩ : Note))] : NetworkFrontier) ∧
    (∃ sm', saveAndClose ⟨"s", [("P", 0)], [(0, [("F", ⟨5, true, true⟩)])], 1, [], []⟩ ("P") =
        .ok sm' ∧
      mget sm'.files ("P") =
        some (.content (encodeFrontier [("F", ⟨5, true, true⟩)])) ∧
      ∃ r' sm'', loadFrontier sm' ("P") = .ok (r', sm'') ∧
        mget sm''.heap r' = some ([("F", ⟨5, true, true⟩)] : NetworkFrontier)) :=
  ⟨rfl, by decide,
   C6_frontier_roundtrip _ ("P") 0 _ rfl rfl (by decide)⟩

/-- C2 counterexample: with the replication list containing F, a peer whose
stored note for F has replicate false, and the verified sequence 4, Changed
still includes F with the freshly built self note, although the claim requires
feeds whose peer note has replicate false to be excluded. -/
theorem C2_changed_counterexample :
    runChanged ⟨"s", [("peer", 0)], [(0, [("F", ⟨0, false, false⟩)])], 1, [], []⟩
        ⟨["F"], fun _ => 4⟩ ("self") ("peer") = some [("F", ⟨4, true, true⟩)] ∧
    frontierNote ⟨"s", [("peer", 0)], [(0, [("F", ⟨0, false, false⟩)])], 1, [], []⟩
        ("peer") ("F") = some ⟨0, false, false⟩ :=
  ⟨by decide, by decide⟩

/-- C2 amended: Changed(self, peer) ignores both stored frontiers and returns a
fresh copy of the local frontier built from the replication list: every listed
feed is mapped to a note carrying its verified sequence with replicate and
receive true, and nothing else is included — no peer-based filtering happens. -/
theorem C2_changed_whole_local_frontier (sm : StateMatrix) (deps : Deps) (slf peer : String) :
    ∃ nf, runChanged sm deps slf peer = some nf ∧
      ∀ f, mget nf f =
        if f ∈ deps.replicationList then some ⟨deps.seqOf f, true, true⟩ else none := by
  refine ⟨copyNF (loadLocalFrontier deps), ?_, ?_⟩
  · simp only [runChanged, changed]
    simp
  · intro f
    rw [copyNF_get_of_nodup (keysNodup_loadLocalFrontier deps), loadLocalFrontier_get]

end GoSSB
